import Mathlib

/-!
Verification development for the Pathfinder variational-inference core of
this repository.  The source consists of two versions of
`stan/services/pathfinder/single.hpp` (a newer one in namespace
`stan::services::pathfinder` and an older one in namespace
`stan::services::optimize`) together with the PSIS companion header
`stan/services/psis.hpp`.

The shallow embedding below models Eigen dynamic vectors and matrices as
functions `ℕ → K` respectively `ℕ → ℕ → K` together with explicitly carried
dimensions; every matrix product is a `Finset.range` sum over the inner
dimension, exactly mirroring the dimensions used by the source.  The driver
arithmetic is stated over an arbitrary linear ordered field so that concrete
counterexamples can be evaluated over `ℚ` while the analytic parts
(logarithms, square roots, the ELBO estimator, PSIS smoothing) are modelled
over `ℝ`.  Doubles are modelled as exact real numbers; the value `-inf`
that the code stores for a failed log-density evaluation is modelled by
`⊥ : WithBot ℝ`.
-/

namespace Spec2Proof

/-- Dynamically sized vector (Eigen `VectorXd` / `ArrayXd`): entries beyond the
nominal size are junk and never read, since every reduction below sums over an
explicit `Finset.range`. -/
abbrev Vec (K : Type) := ℕ → K

/-- Dynamically sized matrix (Eigen `MatrixXd`), entry access `A i j` with
row `i` and column `j`. -/
abbrev Mat (K : Type) := ℕ → ℕ → K

/-- Dot product of the first `d` coordinates (`Eigen::VectorXd::dot`). -/
def dotv {K : Type} [Field K] (d : ℕ) (x y : Vec K) : K :=
  ∑ j ∈ Finset.range d, x j * y j

/-- `check_curve` (newer single.hpp, lines 249-254):
`Dk = Yk.dot(Sk)`, `thetak = |Yk.array().square().sum() / Dk|`, and the
result is `Dk > 0 && thetak <= 1e12`.  `d` is the common vector size. -/
def check_curve {K : Type} [LinearOrderedField K] (d : ℕ) (Yk Sk : Vec K) : Prop :=
  0 < dotv d Yk Sk ∧ |(∑ j ∈ Finset.range d, Yk j ^ 2) / dotv d Yk Sk| ≤ 10 ^ 12

instance {K : Type} [LinearOrderedField K] (d : ℕ) (Yk Sk : Vec K) :
    Decidable (check_curve d Yk Sk) := by
  unfold check_curve; infer_instance

/-- `form_diag` (newer single.hpp, lines 272-282), the Gilbert–Lemaréchal
eq. 4.9 diagonal update:
`y_alpha_y = Yk.dot(alpha_init.asDiagonal() * Yk)`,
`y_s = Yk.dot(Sk)`,
`s_inv_alpha_s = Sk.dot(alpha_init.array().inverse().asDiagonal() * Sk)`,
returning elementwise
`y_s / (y_alpha_y / alpha_init + Yk^2 - (y_alpha_y / s_inv_alpha_s) * (Sk/alpha_init)^2)`. -/
def form_diag {K : Type} [LinearOrderedField K] (d : ℕ)
    (alpha_init Yk Sk : Vec K) : Vec K :=
  let y_alpha_y : K := ∑ j ∈ Finset.range d, Yk j * (alpha_init j * Yk j)
  let y_s : K := dotv d Yk Sk
  let s_inv_alpha_s : K := ∑ j ∈ Finset.range d, Sk j * ((alpha_init j)⁻¹ * Sk j)
  fun i =>
    y_s
      / (y_alpha_y / alpha_init i + Yk i ^ 2
          - y_alpha_y / s_inv_alpha_s * (Sk i / alpha_init i) ^ 2)

/-- `boost::circular_buffer::push_back` on a buffer created with capacity
`cap`: appends at the back, evicting the front element when the buffer is
full; a zero-capacity buffer stays empty. -/
def push_buff {V : Type} (cap : ℕ) (buff : List V) (x : V) : List V :=
  if cap = 0 then buff
  else if buff.length < cap then buff ++ [x]
  else buff.drop 1 ++ [x]

/-- The mutable driver-loop state of `pathfinder_lbfgs_single` that the body
of the `while` loop updates (newer single.hpp, lines 847-852, 873, 922-931):
the two circular buffers, the previous iterate, and the diagonal
preconditioner `alpha` together with `current_history_size`. -/
structure LbfgsState (K : Type) where
  param_buff : List (Vec K)
  grad_buff : List (Vec K)
  prev_params : Vec K
  prev_grads : Vec K
  alpha : Vec K
  curr_hist : ℕ

/-- The history/alpha update performed by one driver-loop iteration of
`pathfinder_lbfgs_single` (newer single.hpp, lines 917-931).  When the
optimizer return code is `-1` the block is skipped entirely.  Otherwise the
new differences are pushed into the circular buffers unconditionally, and
`alpha` is recomputed by `form_diag` exactly when
`check_curve(param_buff.back(), grad_buff.back())` holds — note that the
call site binds `check_curve`'s first argument `Yk` to the parameter
difference and `Sk` to the gradient difference. -/
def lbfgs_driver_step {K : Type} [LinearOrderedField K] (history_size d : ℕ)
    (st : LbfgsState K) (ret : Int) (curr_x curr_g : Vec K) : LbfgsState K :=
  if ret ≠ -1 then
    let param_diff : Vec K := fun j => curr_x j - st.prev_params j
    let grad_diff : Vec K := fun j => curr_g j - st.prev_grads j
    let param_buff := push_buff history_size st.param_buff param_diff
    let grad_buff := push_buff history_size st.grad_buff grad_diff
    let curr_hist := min (st.curr_hist + 1) history_size
    let alpha :=
      if check_curve d param_diff grad_diff then
        form_diag d st.alpha grad_diff param_diff
      else st.alpha
    ⟨param_buff, grad_buff, curr_x, curr_g, alpha, curr_hist⟩
  else st

/-- `std::swap` of two array positions (used pairwise on the value and index
arrays of the PSIS quicksort, which always swap in lockstep; the two parallel
Eigen arrays are therefore modelled as one array of pairs ordered by the
value component).  Out-of-range positions leave the array unchanged. -/
def swapD {α : Type} [Inhabited α] (a : Array α) (i j : ℕ) : Array α :=
  let vi := a.getD i default
  let vj := a.getD j default
  (a.setD i vj).setD j vi

/-- `quick_sort_partition` of psis.hpp (lines 148-166): Lomuto partition on
`[low, high]` with pivot `arr[high]`; `store` plays the role of `i + 1` of
the source (the index of the smaller element plus one), so the source's
`++i; swap(arr[i], arr[j])` is `swap(arr[store], arr[j]); ++store`.  Returns
the array and the final pivot position `i + 1`. -/
def quick_sort_partition {α : Type} [LinearOrder α] [Inhabited α]
    (arr : Array (α × ℤ)) (low high : ℕ) : Array (α × ℤ) × ℕ :=
  let pivot := (arr.getD high default).1
  let p :=
    (List.range' low (high - low)).foldl
      (fun (p : Array (α × ℤ) × ℕ) j =>
        if (p.1.getD j default).1 ≤ pivot then (swapD p.1 p.2 j, p.2 + 1)
        else p)
      (arr, low)
  (swapD p.1 p.2 high, p.2)

/-- `quick_sort` of psis.hpp (lines 173-187) on the range `[low, high]`.
The `tbb::parallel_invoke` taken for ranges longer than 400 performs the
same two recursive sorts on disjoint ranges, so it is semantically the
sequential branch.  Recursion is by fuel; each level strictly shrinks the
range, so any fuel of at least `high - low + 1` (the top-level call passes
`arr.size + 1`) reproduces the source.  A pivot position of `0` makes the
left recursive range `[0, 0-1]`, which in `ℕ` is `[0, 0]` and is skipped by
`low < high` just as the source's `[0, -1]` is. -/
def quick_sort_aux {α : Type} [LinearOrder α] [Inhabited α] (fuel : ℕ)
    (arr : Array (α × ℤ)) (low high : ℕ) : Array (α × ℤ) :=
  match fuel with
  | 0 => arr
  | fuel + 1 =>
    if low < high then
      let p := quick_sort_partition arr low high
      let left := quick_sort_aux fuel p.1 low (p.2 - 1)
      quick_sort_aux fuel left (p.2 + 1) high
    else arr

/-- `quick_sort` of psis.hpp (lines 190-192), the whole-array entry point
`quick_sort(arr, idx, 0, arr.size() - 1)`. -/
def quick_sort {α : Type} [LinearOrder α] [Inhabited α]
    (arr : Array (α × ℤ)) : Array (α × ℤ) :=
  quick_sort_aux (arr.size + 1) arr 0 (arr.size - 1)

/-- The binary-search loop of `max_n_insertion_start` (psis.hpp, lines
199-207), `while (high_idx - low_idx > 1)`; the indices are C++ signed
integers (`low_idx` starts at `-1`) and `(low_idx + high_idx) / 2` is the
toward-zero division of C++, which `Int` division matches.  Fuel bounds the
halving loop; any fuel of at least `top_n.size + 2` suffices. -/
def max_n_insertion_loop {α : Type} [LinearOrder α] [Inhabited α] (fuel : ℕ)
    (top_n : Array (α × ℤ)) (value : α) (low_idx high_idx : ℤ) : ℤ × ℤ :=
  match fuel with
  | 0 => (low_idx, high_idx)
  | fuel + 1 =>
    if 1 < high_idx - low_idx then
      let probe_idx := (low_idx + high_idx) / 2
      let curr_val := (top_n.getD probe_idx.toNat default).1
      if value < curr_val then
        max_n_insertion_loop fuel top_n value low_idx probe_idx
      else max_n_insertion_loop fuel top_n value probe_idx high_idx
    else (low_idx, high_idx)

/-- `max_n_insertion_start` of psis.hpp (lines 194-213). -/
def max_n_insertion_start {α : Type} [LinearOrder α] [Inhabited α]
    (top_n : Array (α × ℤ)) (value : α) : ℤ :=
  let top_size : ℤ := top_n.size
  let r := max_n_insertion_loop (top_n.size + 2) top_n value (-1) top_size
  if r.2 = top_size then top_size - 1 else r.2 - 1

/-- `max_n_elements` of psis.hpp (lines 215-236).  `top_n` is
`lw.head(tail_len_i)` and `top_n_idx` is
`LinSpaced(tail_len_i, 0, tail_len_i)`, whose integer spacing
`tail_len_i / (tail_len_i - 1)` equals `1` for every `tail_len_i ≥ 2`, i.e.
the indices `0, 1, …, tail_len_i - 1`; both are sorted together by
`quick_sort`.  The re-scan loop `for (i = tail_len_i; i < tail_len_i; ++i)`
has an empty range and never executes; its body (transcribed below over the
empty range) would shift the smallest retained entries out and insert
`lw[i]` at the position found by `max_n_insertion_start`.  Returns the pair
(values, original indices). -/
def max_n_elements {α : Type} [LinearOrder α] [Inhabited α]
    (lw : Array α) (tail_len_i : ℕ) : Array α × Array ℤ :=
  let top_n : Array (α × ℤ) :=
    (Array.range tail_len_i).map (fun i => (lw.getD i default, (i : ℤ)))
  let sorted := quick_sort top_n
  let final :=
    (List.range' tail_len_i 0).foldl
      (fun tp i =>
        if (tp.getD 0 default).1 ≤ lw.getD i default then
          let starting_pos :=
            (max_n_insertion_start tp (lw.getD i default)).toNat
          let shifted :=
            (List.range' 1 starting_pos).foldl
              (fun (a : Array (α × ℤ)) k => a.setD (k - 1) (a.getD k default))
              tp
          shifted.setD starting_pos (lw.getD i default, (i : ℤ))
        else tp)
      sorted
  (final.map Prod.fst, final.map Prod.snd)

/-- `Eigen::...::maxCoeff()` over a nonempty array (junk `0` when empty). -/
def arrMax (a : Array ℝ) : ℝ := a.toList.foldl max (a.getD 0 0)

/-- `Eigen::...::minCoeff()` over a nonempty array (junk `0` when empty). -/
def arrMin (a : Array ℝ) : ℝ := a.toList.foldl min (a.getD 0 0)

/-- `Eigen::...::tail(n)`: the last `n` entries. -/
def arrTail {α : Type} (a : Array α) (n : ℕ) : Array α :=
  a.extract (a.size - n) a.size

noncomputable section RealModel

/-- Identity matrix entry (`Eigen::MatrixXd::Identity`). -/
def idm {K : Type} [Field K] [DecidableEq ℕ] : Mat K :=
  fun i j => if i = j then 1 else 0

/-- `taylor_approx_t` of the newer single.hpp (lines 287-294), with the
dimensions of its dynamically sized members carried explicitly: `dim` is the
number of parameters (size of `x_center` and `alpha`, rows of `Qk`), `rank`
the column count of `Qk` and the size of the square `L_approx` in the sparse
case; in the full case `L_approx` is `dim × dim` and `Qk` is the empty
`0 × 0` matrix, so `rank = 0`. -/
structure taylor_approx_t where
  dim : ℕ
  rank : ℕ
  x_center : Vec ℝ
  logdetcholHk : ℝ
  L_approx : Mat ℝ
  Qk : Mat ℝ
  alpha : Vec ℝ
  use_full : Bool

/-- `approximate_samples` of the newer single.hpp (lines 321-340, the matrix
overload).  Full: `(L_approxᵀ · u).colwise() + x_center`.  Sparse:
`(diag(√alpha) · (Qk · (L_approx − I) · (Qkᵀ · u) + u)).colwise() + x_center`. -/
def approximate_samples (u : Mat ℝ) (T : taylor_approx_t) : Mat ℝ :=
  if T.use_full then
    fun i j => (∑ l ∈ Finset.range T.dim, T.L_approx l i * u l j) + T.x_center i
  else
    fun i j =>
      Real.sqrt (T.alpha i)
          * ((∑ a ∈ Finset.range T.rank,
                T.Qk i a
                  * (∑ b ∈ Finset.range T.rank,
                      (T.L_approx a b - idm a b)
                        * (∑ l ∈ Finset.range T.dim, T.Qk l b * u l j)))
              + u i j)
        + T.x_center i

/-- `elbo_est_t` of the newer single.hpp (lines 299-305).  The double matrix
`lp_mat` is split into its two columns: column 0 (`lp_mat0`, the log-density
under the approximation) is always a finite real, while column 1 (`lp_mat1`,
the target log-density) is `⊥` for a draw whose `lp_fun` call threw, the
model of the `-inf` the code stores there.  `elbo` defaults to `-inf`,
modelled by `⊥`. -/
structure elbo_est_t where
  elbo : WithBot ℝ
  fn_calls : ℕ
  repeat_draws : Mat ℝ
  lp_mat0 : ℕ → ℝ
  lp_mat1 : ℕ → WithBot ℝ
  lp_ratio : ℕ → WithBot ℝ

/-- Subtraction of a finite real from a possibly `-inf` value
(`lp_mat.col(1) - lp_mat.col(0)` where column 0 is finite): `-inf` absorbs. -/
def wbSub (a : WithBot ℝ) (r : ℝ) : WithBot ℝ :=
  a.map (fun v => v - r)

/-- `Eigen::...::mean()` over the first `K` entries of a possibly `-inf`
valued sequence: the sum absorbs `-inf` and the division by the (positive)
count keeps it. -/
def meanWB (K : ℕ) (f : ℕ → WithBot ℝ) : WithBot ℝ :=
  (∑ j ∈ Finset.range K, f j).map (fun s => s / K)

/-- `est_approx_draws` of the newer single.hpp (lines 421-468).  The matrix
`u` of standard-normal variates that the source draws from its RNG (an
external collaborator) is passed in; `returnElbo` is the `ReturnElbo`
template flag.  `lp_fun` may throw, modelled by `Except`; the loop catches
the exception per column and records `-inf` (here `⊥`), so the function as a
whole is total.  `lp_fun_calls` is incremented once per loop iteration
(also on the throwing ones), hence equals `num_samples`. -/
def est_approx_draws (returnElbo : Bool)
    (lp_fun : Vec ℝ → Except Unit ℝ) (u : Mat ℝ)
    (T : taylor_approx_t) (num_samples : ℕ) (alpha : Vec ℝ) : elbo_est_t :=
  let num_params := T.dim
  let _unused := alpha   -- the `alpha` parameter of the source is never read
  let lp0 : ℕ → ℝ := fun j =>
    -T.logdetcholHk
      + -0.5 * ((∑ i ∈ Finset.range num_params, u i j ^ 2)
          + num_params * Real.log (2 * Real.pi))
  let approx_samples := approximate_samples u T
  let lp1 : ℕ → WithBot ℝ := fun j =>
    match lp_fun (fun i => approx_samples i j) with
    | Except.ok v => (v : WithBot ℝ)
    | Except.error _ => ⊥
  let ratio : ℕ → WithBot ℝ := fun j => wbSub (lp1 j) (lp0 j)
  if returnElbo then
    ⟨meanWB num_samples ratio, num_samples, approx_samples, lp0, lp1, ratio⟩
  else
    ⟨⊥, num_samples, approx_samples, lp0, lp1, ratio⟩

/-- The dense numerical decompositions the source delegates to Eigen
(`.llt().matrixL()` and `Eigen::HouseholderQR`): external library kernels,
passed as parameters of the embedding.  `llt n A` is the lower Cholesky
factor of the `n × n` matrix `A`; `qrQ r c W` is the full `r × r` Householder
`Q` of the `r × c` matrix `W` and `qrR r c W` its packed `matrixQR()` (whose
upper part is `R`). -/
structure EigenKernels where
  llt : ℕ → Mat ℝ → Mat ℝ
  qrQ : ℕ → ℕ → Mat ℝ → Mat ℝ
  qrR : ℕ → ℕ → Mat ℝ → Mat ℝ

/-- `taylor_approximation_full` of the newer single.hpp (lines 495-520).
`Ykt` is `d × n` (columns are the gradient differences), `ninvRST` is
`n × d`, `Dk` has size `n`.  Builds
`Hk = y_mul_alphaᵀ·ninvRST + ninvRSTᵀ·(y_mul_alpha + y_tcrossprod_alpha·ninvRST) + diag(alpha)`
with `y_mul_alpha = Yktᵀ·diag(alpha)` and
`y_tcrossprod_alpha = tcrossprod(Yktᵀ·diag(√alpha)) + diag(Dk)`, then
`L_approx = chol(Hk).Lᵀ`, `x_center = point_est − Hk·grad_est`, `Qk` the
empty `0 × 0` matrix and `use_full = true`. -/
def taylor_approximation_full (ker : EigenKernels) (d n : ℕ)
    (Ykt : Mat ℝ) (alpha : Vec ℝ) (Dk : Vec ℝ) (ninvRST : Mat ℝ)
    (point_est grad_est : Vec ℝ) : taylor_approx_t :=
  let y_tcross : Mat ℝ := fun i j =>
    (∑ l ∈ Finset.range d,
        Ykt l i * Real.sqrt (alpha l) * (Ykt l j * Real.sqrt (alpha l)))
      + (if i = j then Dk i else 0)
  let y_mul_alpha : Mat ℝ := fun a l => Ykt l a * alpha l
  let Hk : Mat ℝ := fun i j =>
    (∑ a ∈ Finset.range n, y_mul_alpha a i * ninvRST a j)
      + (∑ a ∈ Finset.range n,
          ninvRST a i
            * (y_mul_alpha a j + ∑ b ∈ Finset.range n, y_tcross a b * ninvRST b j))
      + (if i = j then alpha i else 0)
  let L_hk : Mat ℝ := fun i j => ker.llt d Hk j i
  let logdetcholHk : ℝ := ∑ i ∈ Finset.range d, Real.log |L_hk i i|
  let x_center : Vec ℝ := fun i =>
    point_est i - ∑ l ∈ Finset.range d, Hk i l * grad_est l
  ⟨d, 0, x_center, logdetcholHk, L_hk, fun _ _ => 0, alpha, true⟩

/-- `taylor_approximation_sparse` of the newer single.hpp (lines 547-600).
Stacks `Wkbartᵀ = [Yktᵀ·diag(√alpha) ; ninvRST·diag(√(1/alpha))]`, takes a
Householder QR of the transposed `W` (`d × 2n`), keeps the thin factors
`Qk = Q·I_{d×min}` and `Rkbar` (strict lower part zeroed), forms the middle
block `Mkbar = [[0, I], [I, Yᵀ·diag(alpha)·Y + diag(Dk)]]` and sets
`L_approx = chol(Rkbar·Mkbar·Rkbarᵀ + I).Lᵀ`, with
`logdetcholHk = Σ log|diag(L_approx)| + ½ Σ log(alpha)` and the low-rank
`x_center` update; `use_full = false`. -/
def taylor_approximation_sparse (ker : EigenKernels) (d n : ℕ)
    (Ykt : Mat ℝ) (alpha : Vec ℝ) (Dk : Vec ℝ) (ninvRST : Mat ℝ)
    (point_est grad_est : Vec ℝ) : taylor_approx_t :=
  let m := 2 * n
  let y_tcross : Mat ℝ := fun i j =>
    (∑ l ∈ Finset.range d,
        Ykt l i * Real.sqrt (alpha l) * (Ykt l j * Real.sqrt (alpha l)))
      + (if i = j then Dk i else 0)
  let Wkbart : Mat ℝ := fun i j =>
    if i < n then Ykt j i * Real.sqrt (alpha j)
    else ninvRST (i - n) j * Real.sqrt (alpha j)⁻¹
  let Mkbar : Mat ℝ := fun i j =>
    if i < n then (if j < n then 0 else idm i (j - n))
    else (if j < n then idm (i - n) j else y_tcross (i - n) (j - n))
  let Wt : Mat ℝ := fun i j => Wkbart j i
  let min_size := min d m
  let Rkbar : Mat ℝ := fun i j => if j < i then 0 else ker.qrR d m Wt i j
  let Qk : Mat ℝ := fun i a => ker.qrQ d m Wt i a
  let L_approx : Mat ℝ := fun i j =>
    ker.llt min_size
      (fun a b =>
        (∑ c ∈ Finset.range m,
            (∑ e ∈ Finset.range m, Rkbar a e * Mkbar e c) * Rkbar b c)
          + idm a b)
      j i
  let logdetcholHk : ℝ :=
    (∑ i ∈ Finset.range min_size, Real.log |L_approx i i|)
      + 0.5 * ∑ i ∈ Finset.range d, Real.log (alpha i)
  let ninvRSTg : Vec ℝ := fun a => ∑ l ∈ Finset.range d, ninvRST a l * grad_est l
  let alpha_mul_grad : Vec ℝ := fun i => alpha i * grad_est i
  let x_center : Vec ℝ := fun i =>
    point_est i
      - (alpha_mul_grad i
          + alpha i * (∑ a ∈ Finset.range n, Ykt i a * ninvRSTg a)
          + ∑ a ∈ Finset.range n,
              ninvRST a i
                * ((∑ l ∈ Finset.range d, Ykt l a * alpha_mul_grad l)
                    + ∑ b ∈ Finset.range n, y_tcross a b * ninvRSTg b))
  ⟨d, min_size, x_center, logdetcholHk, L_approx, Qk, alpha, false⟩

/-- `taylor_approximation` of the newer single.hpp (lines 627-640):
`if (2 * Ykt_mat.cols() >= Ykt_mat.rows())` build the full approximation,
else the sparse one (`cols = n` is the current history size, `rows = d` the
number of parameters). -/
def taylor_approximation (ker : EigenKernels) (d n : ℕ)
    (Ykt : Mat ℝ) (alpha : Vec ℝ) (Dk : Vec ℝ) (ninvRST : Mat ℝ)
    (point_est grad_est : Vec ℝ) : taylor_approx_t :=
  if 2 * n ≥ d then
    taylor_approximation_full ker d n Ykt alpha Dk ninvRST point_est grad_est
  else
    taylor_approximation_sparse ker d n Ykt alpha Dk ninvRST point_est grad_est

/-- `taylor_approx_t` of the older single.hpp (lines 1235-1241); unlike the
newer one it does not store `alpha`. -/
structure taylor_approx_t_old where
  dim : ℕ
  rank : ℕ
  x_center : Vec ℝ
  logdetcholHk : ℝ
  L_approx : Mat ℝ
  Qk : Mat ℝ
  use_full : Bool

/-- `get_rnorm_and_draws` of the older single.hpp (lines 1251-1266), with
`crossprod(a, b) = aᵀ·b`.  Full: `(crossprod(L_approx, u)).colwise() + x_center`.
Sparse: `u1 = Qkᵀ·u`, then
`(diag(√alpha) · (Qk·crossprod(L_approx, u1) + (u − Qk·u1))).colwise() + x_center`. -/
def get_rnorm_and_draws (u : Mat ℝ) (T : taylor_approx_t_old)
    (alpha : Vec ℝ) : Mat ℝ :=
  if T.use_full then
    fun i j => (∑ l ∈ Finset.range T.dim, T.L_approx l i * u l j) + T.x_center i
  else
    let u1 : Mat ℝ := fun a j => ∑ l ∈ Finset.range T.dim, T.Qk l a * u l j
    fun i j =>
      Real.sqrt (alpha i)
          * ((∑ a ∈ Finset.range T.rank,
                T.Qk i a
                  * (∑ b ∈ Finset.range T.rank, T.L_approx b a * u1 b j))
              + (u i j - ∑ a ∈ Finset.range T.rank, T.Qk i a * u1 a j))
        + T.x_center i

/-- `construct_taylor_approximation_full` of the older single.hpp (lines
1411-1450); numerically the same computation as the newer
`taylor_approximation_full`, with the history passed as a `std::vector` of
column vectors (here again the `d × n` matrix `Ykt`). -/
def construct_taylor_approximation_full (ker : EigenKernels) (d n : ℕ)
    (Ykt : Mat ℝ) (alpha : Vec ℝ) (Dk : Vec ℝ) (ninvRST : Mat ℝ)
    (point_est grad_est : Vec ℝ) : taylor_approx_t_old :=
  let y_tcross : Mat ℝ := fun i j =>
    (∑ l ∈ Finset.range d,
        Ykt l i * Real.sqrt (alpha l) * (Ykt l j * Real.sqrt (alpha l)))
      + (if i = j then Dk i else 0)
  let y_mul_alpha : Mat ℝ := fun a l => Ykt l a * alpha l
  let Hk : Mat ℝ := fun i j =>
    (∑ a ∈ Finset.range n, y_mul_alpha a i * ninvRST a j)
      + (∑ a ∈ Finset.range n, ninvRST a i * y_mul_alpha a j)
      + (∑ a ∈ Finset.range n,
          ninvRST a i * ∑ b ∈ Finset.range n, y_tcross a b * ninvRST b j)
      + (if i = j then alpha i else 0)
  let L_hk : Mat ℝ := fun i j => ker.llt d Hk j i
  let logdetcholHk : ℝ := ∑ i ∈ Finset.range d, Real.log |L_hk i i|
  let x_center : Vec ℝ := fun i =>
    point_est i - ∑ l ∈ Finset.range d, Hk i l * grad_est l
  ⟨d, 0, x_center, logdetcholHk, L_hk, fun _ _ => 0, true⟩

/-- `construct_taylor_approximation_sparse` of the older single.hpp (lines
1454-1526); the same computation as the newer `taylor_approximation_sparse`
without storing `alpha` in the result. -/
def construct_taylor_approximation_sparse (ker : EigenKernels) (d n : ℕ)
    (Ykt : Mat ℝ) (alpha : Vec ℝ) (Dk : Vec ℝ) (ninvRST : Mat ℝ)
    (point_est grad_est : Vec ℝ) : taylor_approx_t_old :=
  let m := 2 * n
  let y_tcross : Mat ℝ := fun i j =>
    (∑ l ∈ Finset.range d,
        Ykt l i * Real.sqrt (alpha l) * (Ykt l j * Real.sqrt (alpha l)))
      + (if i = j then Dk i else 0)
  let Wkbart : Mat ℝ := fun i j =>
    if i < n then Ykt j i * Real.sqrt (alpha j)
    else ninvRST (i - n) j * Real.sqrt (alpha j)⁻¹
  let Mkbar : Mat ℝ := fun i j =>
    if i < n then (if j < n then 0 else idm i (j - n))
    else (if j < n then idm (i - n) j else y_tcross (i - n) (j - n))
  let Wt : Mat ℝ := fun i j => Wkbart j i
  let min_size := min d m
  let Rkbar : Mat ℝ := fun i j => if j < i then 0 else ker.qrR d m Wt i j
  let Qk : Mat ℝ := fun i a => ker.qrQ d m Wt i a
  let L_approx : Mat ℝ := fun i j =>
    ker.llt min_size
      (fun a b =>
        (∑ c ∈ Finset.range m,
            (∑ e ∈ Finset.range m, Rkbar a e * Mkbar e c) * Rkbar b c)
          + idm a b)
      j i
  let logdetcholHk : ℝ :=
    (∑ i ∈ Finset.range min_size, Real.log |L_approx i i|)
      + 0.5 * ∑ i ∈ Finset.range d, Real.log (alpha i)
  let ninvRSTg : Vec ℝ := fun a => ∑ l ∈ Finset.range d, ninvRST a l * grad_est l
  let alpha_mul_grad : Vec ℝ := fun i => alpha i * grad_est i
  let x_center : Vec ℝ := fun i =>
    point_est i
      - (alpha_mul_grad i
          + alpha i * (∑ a ∈ Finset.range n, Ykt i a * ninvRSTg a)
          + (∑ a ∈ Finset.range n,
              ninvRST a i * ∑ l ∈ Finset.range d, Ykt l a * alpha_mul_grad l)
          + ∑ a ∈ Finset.range n,
              ninvRST a i * ∑ b ∈ Finset.range n, y_tcross a b * ninvRSTg b)
  ⟨d, min_size, x_center, logdetcholHk, L_approx, Qk, false⟩

/-- `construct_taylor_approximation` of the older single.hpp (lines
1530-1542): `if (2 * Ykt_mat.size() >= Ykt_mat[0].size())` build the full
approximation, else the sparse one (`Ykt_mat.size() = n` is the history
length and `Ykt_mat[0].size() = d` the number of parameters). -/
def construct_taylor_approximation (ker : EigenKernels) (d n : ℕ)
    (Ykt : Mat ℝ) (alpha : Vec ℝ) (Dk : Vec ℝ) (ninvRST : Mat ℝ)
    (point_est grad_est : Vec ℝ) : taylor_approx_t_old :=
  if 2 * n ≥ d then
    construct_taylor_approximation_full ker d n Ykt alpha Dk ninvRST point_est
      grad_est
  else
    construct_taylor_approximation_sparse ker d n Ykt alpha Dk ninvRST point_est
      grad_est

/-- Entry `(i, j)` of the solution `X` of the upper-triangular system
`R·X = B` (`Eigen::TriangularView<Upper>::solveInPlace` on an `n × n` system)
by backward substitution. -/
def backSolveEntry (n : ℕ) (R B : Mat ℝ) (j : ℕ) (i : ℕ) : ℝ :=
  if i < n then
    (B i j
        - ∑ l ∈ (Finset.Ioo i n).attach,
            R i l.1 * backSolveEntry n R B j l.1)
      / R i i
  else 0
termination_by n - i
decreasing_by
  have hl := Finset.mem_Ioo.mp l.2
  omega

/-- The solution of the upper-triangular system `R·X = B` with `R` of size
`n × n`. -/
def backSolve (n : ℕ) (R B : Mat ℝ) : Mat ℝ :=
  fun i j => backSolveEntry n R B j i

/-- The outcome of `lbfgs.step()` together with the optimizer state read
afterwards (`lbfgs.curr_x()`, `lbfgs.curr_g()`): the L-BFGS line-search
driver is an external collaborator, so one step is an oracle value. -/
structure OptStep where
  ret : Int
  curr_x : Vec ℝ
  curr_g : Vec ℝ

/-- `pathfinder_impl` of the newer single.hpp (lines 703-744).  `Ykt` and
`Skt` are the `d × n` history matrices; the function forms
`Rk = triu(Sktᵀ·Ykt)`, `Dk = diag(Rk)`, solves `Rk·X = Sktᵀ` in place and
negates to get `ninvRST = -Rk⁻¹·Sktᵀ`, builds the Taylor approximation and
estimates the ELBO.  The `try`/`catch` around `est_approx_draws` has no
effect in the model: the modelled estimator is total (the only throwing
collaborator, `lp_fun`, is caught per draw inside it). -/
def pathfinder_impl (ker : EigenKernels) (lp_fun : Vec ℝ → Except Unit ℝ)
    (u : Mat ℝ) (d n : ℕ) (alpha : Vec ℝ)
    (current_params current_grads : Vec ℝ) (Ykt Skt : Mat ℝ)
    (num_elbo_draws : ℕ) : elbo_est_t × taylor_approx_t :=
  let Rk : Mat ℝ := fun i j =>
    if i ≤ j then ∑ l ∈ Finset.range d, Skt l i * Ykt l j else 0
  let Dk : Vec ℝ := fun i => Rk i i
  let SktT : Mat ℝ := fun a j => Skt j a
  let ninvRST : Mat ℝ := fun a j => -backSolve n Rk SktT a j
  let taylor_appx :=
    taylor_approximation ker d n Ykt alpha Dk ninvRST current_params
      current_grads
  (est_approx_draws true lp_fun u taylor_appx num_elbo_draws alpha, taylor_appx)

/-- Junk default-constructed `elbo_est_t` (`internal::elbo_est_t elbo_best;`):
`elbo` starts at `-infinity` (`⊥`), the matrices are empty. -/
def elbo_est_default : elbo_est_t :=
  ⟨⊥, 0, fun _ _ => 0, fun _ => 0, fun _ => 0, fun _ => 0⟩

/-- Junk default-constructed `taylor_approx_t`. -/
def taylor_approx_default : taylor_approx_t :=
  ⟨0, 0, fun _ => 0, 0, fun _ _ => 0, fun _ _ => 0, fun _ => 0, false⟩

/-- The external collaborators of `pathfinder_lbfgs_single`: the interrupt
callback (which may throw), the optimizer, the per-iteration and final
standard-normal draws of the RNG, the model's log density and constraining
transform, the initial point from `util::initialize` with its gradient, and
the optimizer's gradient-evaluation counter.  Writer and logger callbacks
are pure sinks and are omitted. -/
structure DriverOracles where
  interrupt : ℕ → Except Unit Unit
  optim : ℕ → OptStep
  unit_samps : ℕ → Mat ℝ
  final_samps : Mat ℝ
  lp_fun : Vec ℝ → Except Unit ℝ
  constrain_fun : Vec ℝ → Vec ℝ
  init_params : Vec ℝ
  init_grads : Vec ℝ
  grad_evals : ℕ

/-- The mutable state of the driver loop of `pathfinder_lbfgs_single`:
return code, iteration counter (`lbfgs.iter_num()`, modelled as the number
of completed loop iterations), the L-BFGS history state, and the running
best-ELBO record. -/
structure DriverState where
  ret : Int
  iter : ℕ
  lb : LbfgsState ℝ
  best_E : ℤ
  elbo_best : elbo_est_t
  taylor_best : taylor_approx_t
  num_evals : ℕ

/-- One execution of the body of the `while` loop of
`pathfinder_lbfgs_single` after `interrupt()` and `ret = lbfgs.step()`
(newer single.hpp, lines 883-969): when `ret != -1` the history and `alpha`
are updated (`lbfgs_driver_step`), the history matrices are rebuilt from the
circular buffers, `pathfinder_impl` runs, and the best-ELBO record is
replaced when the new ELBO is strictly larger. -/
def driver_body (ker : EigenKernels) (orc : DriverOracles)
    (history_size d num_elbo_draws : ℕ) (st : DriverState) : DriverState :=
  let o := orc.optim st.iter
  if o.ret ≠ -1 then
    let lb := lbfgs_driver_step history_size d st.lb o.ret o.curr_x o.curr_g
    let Ykt : Mat ℝ := fun i a => (lb.grad_buff.getD a (fun _ => 0)) i
    let Skt : Mat ℝ := fun i a => (lb.param_buff.getD a (fun _ => 0)) i
    let pres :=
      pathfinder_impl ker orc.lp_fun (orc.unit_samps st.iter) d lb.curr_hist
        lb.alpha o.curr_x o.curr_g Ykt Skt num_elbo_draws
    let num_evals := st.num_evals + pres.1.fn_calls
    if pres.1.elbo > st.elbo_best.elbo then
      ⟨o.ret, st.iter + 1, lb, (st.iter : ℤ), pres.1, pres.2, num_evals⟩
    else
      ⟨o.ret, st.iter + 1, lb, st.best_E, st.elbo_best, st.taylor_best,
        num_evals⟩
  else
    ⟨o.ret, st.iter + 1, st.lb, st.best_E, st.elbo_best, st.taylor_best,
      st.num_evals⟩

/-- The `while (ret == 0)` loop of `pathfinder_lbfgs_single` (newer
single.hpp, lines 880-970).  Each pass first invokes `interrupt()`; there is
no handler around it, so a throw propagates (`Except.error`).  The loop is
given fuel: the optimizer's `ConvergenceOptions::maxIts` guarantees a
nonzero return code within `num_iterations` steps, so any fuel of at least
`num_iterations + 1` reproduces the source behaviour. -/
def driver_loop (ker : EigenKernels) (orc : DriverOracles)
    (history_size d num_elbo_draws : ℕ) :
    ℕ → DriverState → Except Unit DriverState
  | 0, st => Except.ok st
  | fuel + 1, st =>
    if st.ret ≠ 0 then Except.ok st
    else
      match orc.interrupt st.iter with
      | Except.error e => Except.error e
      | Except.ok _ =>
          driver_loop ker orc history_size d num_elbo_draws fuel
            (driver_body ker orc history_size d num_elbo_draws st)

/-- Modelled from the spec: the error taxonomy of
`stan/services/error_codes.hpp` (not under `src/`), `OK` for a normal finish
and `SOFTWARE` for failures; sysexits-style values. -/
def error_codes_OK : Int := 0

/-- Modelled from the spec: the `SOFTWARE` member of
`stan/services/error_codes.hpp` (not under `src/`). -/
def error_codes_SOFTWARE : Int := 70

/-- The value `ret_pathfinder<true>` packages (newer single.hpp, lines
654-660): return code, the `lp_ratio` vector with its length, the
constrained draws matrix (entries may be `-infinity`, hence `WithBot ℝ`)
with its column count, and the cumulative evaluation count. -/
structure PathReturn where
  code : Int
  lp_ratio : ℕ → WithBot ℝ
  lp_ratio_size : ℕ
  draws : ℕ → ℕ → WithBot ℝ
  draws_cols : ℕ
  num_evals : ℕ

/-- The code after the driver loop of `pathfinder_lbfgs_single` (newer
single.hpp, lines 971-1095).  `param_vecs` is declared but never filled in
this version of the file, so the early `ret < 0 && param_vecs.size() == 1`
SOFTWARE return can never fire; `best_E == -1` returns `SOFTWARE` with
empty `lp_ratio` and draws; otherwise the final draw matrix is assembled
(extra draws via `est_approx_draws<false>` when `num_draws` exceeds the
ELBO sample count).  In the model neither the extra sampling nor
`constrain_fun` can throw, so the `catch` fallback (lines 1046-1066) is
unreachable. -/
def driver_post (orc : DriverOracles)
    (num_draws names_size : ℕ) (st : DriverState) : PathReturn :=
  let param_vecs : List (Vec ℝ) := []
  if st.ret < 0 ∧ param_vecs.length = 1 then
    ⟨error_codes_SOFTWARE, fun _ => 0, 0, fun _ _ => 0, 0,
      st.num_evals + orc.grad_evals⟩
  else
    let num_evals := st.num_evals + orc.grad_evals
    if st.best_E = -1 then
      ⟨error_codes_SOFTWARE, fun _ => 0, 0, fun _ _ => 0, 0, num_evals⟩
    else
      let elbo_cols := st.elbo_best.fn_calls
      let num_unconstrained := names_size - 2
      let elbo_part : ℕ → ℕ → WithBot ℝ := fun r c =>
        if r < num_unconstrained then
          (orc.constrain_fun (fun i => st.elbo_best.repeat_draws i c) r :
            WithBot ℝ)
        else if r = names_size - 2 then (st.elbo_best.lp_mat0 c : WithBot ℝ)
        else st.elbo_best.lp_mat1 c
      if 0 < num_draws - elbo_cols then
        let remaining := num_draws - elbo_cols
        let est_draws :=
          est_approx_draws false orc.lp_fun orc.final_samps st.taylor_best
            remaining st.taylor_best.alpha
        let num_evals := num_evals + est_draws.fn_calls
        let lp_all : ℕ → WithBot ℝ := fun j =>
          if j < elbo_cols then st.elbo_best.lp_ratio j
          else est_draws.lp_ratio (j - elbo_cols)
        let draws : ℕ → ℕ → WithBot ℝ := fun r c =>
          if c < elbo_cols then elbo_part r c
          else if r < num_unconstrained then
            (orc.constrain_fun
                (fun i => est_draws.repeat_draws i (c - elbo_cols)) r :
              WithBot ℝ)
          else if r = names_size - 2 then
            (est_draws.lp_mat0 (c - elbo_cols) : WithBot ℝ)
          else est_draws.lp_mat1 (c - elbo_cols)
        ⟨error_codes_OK, lp_all, elbo_cols + remaining, draws,
          elbo_cols + remaining, num_evals⟩
      else
        ⟨error_codes_OK, st.elbo_best.lp_ratio, elbo_cols, elbo_part,
          elbo_cols, num_evals⟩

/-- `pathfinder_lbfgs_single` of the newer single.hpp (lines 798-1096), with
`ReturnLpSamples = true`: initialization (the initial point, its gradient
and the RNG are oracles), `alpha` starting at ones and empty history
buffers, then the driver loop followed by the final packaging.  An
exception escaping the loop (only `interrupt()` can throw there) propagates
out of the function unhandled. -/
def pathfinder_lbfgs_single (ker : EigenKernels) (orc : DriverOracles)
    (history_size d num_iterations num_elbo_draws num_draws names_size : ℕ) :
    Except Unit PathReturn :=
  let st0 : DriverState :=
    ⟨0, 0, ⟨[], [], orc.init_params, orc.init_grads, fun _ => 1, 0⟩, -1,
      elbo_est_default, taylor_approx_default, orc.grad_evals⟩
  (driver_loop ker orc history_size d num_elbo_draws (num_iterations + 1)
      st0).map
    (driver_post orc num_draws names_size)

/-- `stan::math::log_sum_exp` over an array: `log (Σ exp xᵢ)` (the library's
max-subtraction is an exact-arithmetic no-op). -/
def log_sum_exp (v : Array ℝ) : ℝ :=
  Real.log (v.toList.map Real.exp).sum

/-- `lx` of psis.hpp (lines 53-63): for each `aⱼ`,
`k̄ⱼ = meanᵢ log1p(-aⱼ·xᵢ)` and the result is `log(-aⱼ/k̄ⱼ) - k̄ⱼ - 1`. -/
def lx (a x : Array ℝ) : Array ℝ :=
  a.map (fun aj =>
    let k := (x.toList.map (fun xi => Real.log (1 + -aj * xi))).sum / x.size
    Real.log (-aj / k) - k - 1)

/-- `gpdfit` of psis.hpp (lines 86-109), the Zhang–Stephens (2009)
generalized-Pareto estimator: grid size
`M = min_grid_pts + floor(sqrt N)`, first-quartile pivot
`xstar = x[floor(N/4 + 0.5) - 1]`, grid
`θⱼ = 1/x[N-1] + (1 - sqrt(M/(j-0.5)))/prior/xstar`, profile log-likelihood
`N·lx(θ, x)`, softmax weights, `θ̂ = Σ θⱼwⱼ`,
`k = meanᵢ log1p(-θ̂·xᵢ)`, `σ = -k/θ̂`, and the Gaussian prior shrinkage
`k ← k·N/(N+10) + 10·0.5/(N+10)`.  Returns `(σ, k)`. -/
def gpdfit (x : Array ℝ) (min_grid_pts : ℕ) : ℝ × ℝ :=
  let N := x.size
  let prior : ℝ := 3
  let M : ℕ := min_grid_pts + Nat.sqrt N
  let jj : Array ℝ := (Array.range M).map (fun (j : ℕ) => ((j : ℝ) + 1))
  let xstar : ℝ := x.getD ((N + 2) / 4 - 1) 0
  let theta : Array ℝ :=
    jj.map (fun j =>
      1 / x.getD (N - 1) 0 + (1 - Real.sqrt (M / (j - 0.5))) / prior / xstar)
  let l_theta : Array ℝ := (lx theta x).map (fun v => (N : ℝ) * v)
  let lse := log_sum_exp l_theta
  let w_theta : Array ℝ := l_theta.map (fun v => Real.exp (v - lse))
  let theta_hat : ℝ :=
    ((theta.zip w_theta).toList.map (fun p => p.1 * p.2)).sum
  let k : ℝ :=
    (x.toList.map (fun xi => Real.log (1 + -theta_hat * xi))).sum / N
  let sigma : ℝ := -k / theta_hat
  let a : ℝ := 10
  let n_plus_a : ℝ := N + a
  (sigma, k * N / n_plus_a + a * 0.5 / n_plus_a)

/-- `qgpd` of psis.hpp (lines 122-124), the GPD inverse CDF with location 0:
`σ · expm1(-k · log1p(-p)) / k`. -/
def qgpd (p k sigma : ℝ) : ℝ :=
  sigma * (Real.exp (-k * Real.log (1 + -p)) - 1) / k

/-- `std::isinf` in the exact real model: a real number is never infinite
(the double `k` of `gpdfit` can only overflow in floating point). -/
def real_isinf (_x : ℝ) : Bool := false

/-- `psis_smooth_tail` of psis.hpp (lines 127-140): fit a GPD to
`exp(x) - exp(cutoff)` and replace the tail with
`log(qgpd((i-0.5)/n, k, σ) + exp(cutoff))`, returning the smoothed tail and
`k̂`; an infinite `k̂` (impossible in the real model) leaves `x` unchanged. -/
def psis_smooth_tail (x : Array ℝ) (cutoff : ℝ) : Array ℝ × ℝ :=
  let exp_cutoff := Real.exp cutoff
  let fit := gpdfit (x.map (fun v => Real.exp v - exp_cutoff)) 30
  let k := fit.2
  if real_isinf k then (x, k)
  else
    let x_size := x.size
    let p : Array ℝ :=
      (Array.range x_size).map (fun (i : ℕ) => ((i : ℝ) + 1 - 0.5) / x_size)
    (p.map (fun q => Real.log (qgpd q k fit.1 + exp_cutoff)), k)

/-- `insert_smooth_to_tail` of psis.hpp (lines 239-245):
`lw[idx[i]] = smoothed[i]` for each tail position. -/
def insert_smooth_to_tail (lw : Array ℝ) (idx : Array ℤ)
    (smoothed : Array ℝ) : Array ℝ :=
  (List.range idx.size).foldl
    (fun a i => a.setD (idx.getD i 0).toNat (smoothed.getD i 0)) lw

/-- `std::numeric_limits<double>::min()`, the smallest positive normal
double `2⁻¹⁰²²`. -/
def dbl_min : ℝ := 2 ^ (-1022 : ℤ)

/-- `psis_weights` of psis.hpp (lines 248-277): shift by the maximum, when
`tail_len_i ≥ 5` extract `tail_len_i + 1` entries with `max_n_elements`,
smooth the `tail_len_i` tail entries above the cutoff (skipped when the tail
is flat to within `10 · DBL_MIN`) and write them back at their original
positions, truncate positive log weights to `0`, undo the shift and return
the normalized weights `exp(lw - log_sum_exp lw)`. -/
def psis_weights (log_ratios : Array ℝ) (tail_len_i : ℕ) : Array ℝ :=
  let max_log_ratio := arrMax log_ratios
  let lw : Array ℝ := log_ratios.map (fun v => v - max_log_ratio)
  let lw2 : Array ℝ :=
    if 5 ≤ tail_len_i then
      let max_n := max_n_elements lw (tail_len_i + 1)
      let lw_tail : Array ℝ := arrTail max_n.1 tail_len_i
      let cutoff : ℝ := max_n.1.getD 0 0
      if arrMax lw_tail - arrMin lw_tail ≤ dbl_min * 10 then lw
      else
        insert_smooth_to_tail lw (arrTail max_n.2 tail_len_i)
          (psis_smooth_tail lw_tail cutoff).1
    else lw
  let lw3 : Array ℝ := lw2.map (fun v => if 0 < v then 0 else v)
  let max_adj : Array ℝ := lw3.map (fun v => v + max_log_ratio)
  max_adj.map (fun v => Real.exp (v - log_sum_exp max_adj))

end RealModel

/-! ## Claim theorems -/

/-- C6: for every history matrix `Y` with `n` columns and parameter
dimension `d` (and any Eigen decomposition kernels and remaining inputs),
both `taylor_approximation` (newer file) and
`construct_taylor_approximation` (older file) build the dense approximation
with `use_full = true` iff `2·n ≥ d`, and otherwise the sparse one with
`use_full = false`. -/
theorem C6_use_full_iff (ker : EigenKernels) (d n : ℕ) (Ykt : Mat ℝ)
    (alpha Dk : Vec ℝ) (ninvRST : Mat ℝ) (point_est grad_est : Vec ℝ) :
    ((taylor_approximation ker d n Ykt alpha Dk ninvRST point_est
          grad_est).use_full = true ↔ 2 * n ≥ d)
      ∧ ((construct_taylor_approximation ker d n Ykt alpha Dk ninvRST
          point_est grad_est).use_full = true ↔ 2 * n ≥ d) := by
  constructor
  · unfold taylor_approximation
    by_cases h : 2 * n ≥ d
    · rw [if_pos h]
      simpa [taylor_approximation_full] using h
    · rw [if_neg h]
      simpa [taylor_approximation_sparse] using h
  · unfold construct_taylor_approximation
    by_cases h : 2 * n ≥ d
    · rw [if_pos h]
      simpa [construct_taylor_approximation_full] using h
    · rw [if_neg h]
      simpa [construct_taylor_approximation_sparse] using h

/-- A `Finset` sum over `WithBot ℝ` in which one term is `⊥` is `⊥`
(`-inf` absorbs under the floating-point addition being modelled). -/
theorem sum_withBot_eq_bot {s : Finset ℕ} {f : ℕ → WithBot ℝ} {j : ℕ}
    (hj : j ∈ s) (h : f j = ⊥) : ∑ i ∈ s, f i = ⊥ := by
  rw [← Finset.add_sum_erase s f hj, h]
  exact WithBot.bot_add _

/-- C5: every record produced by `est_approx_draws` with `ReturnElbo = true`
has `lp_ratio = lp_mat[:,1] - lp_mat[:,0]` with column 0 the log-density of
the approximation (`-logdetcholHk - ½(|u_j|² + d·log 2π)`) and column 1 the
target log-density, and its `elbo` field is `mean(lp_ratio)` — equal to the
mean whenever that mean is finite, and `-infinity` (`⊥`) whenever the mean
is not finite. -/
theorem C5_elbo_record (lp_fun : Vec ℝ → Except Unit ℝ) (u : Mat ℝ)
    (T : taylor_approx_t) (K : ℕ) (alpha : Vec ℝ) :
    (∀ j, (est_approx_draws true lp_fun u T K alpha).lp_ratio j
        = wbSub ((est_approx_draws true lp_fun u T K alpha).lp_mat1 j)
            ((est_approx_draws true lp_fun u T K alpha).lp_mat0 j))
      ∧ (∀ j, (est_approx_draws true lp_fun u T K alpha).lp_mat0 j
          = -T.logdetcholHk
              + -0.5 * ((∑ i ∈ Finset.range T.dim, u i j ^ 2)
                  + T.dim * Real.log (2 * Real.pi)))
      ∧ (est_approx_draws true lp_fun u T K alpha).elbo
          = meanWB K (est_approx_draws true lp_fun u T K alpha).lp_ratio
      ∧ (∀ r : ℝ,
          meanWB K (est_approx_draws true lp_fun u T K alpha).lp_ratio
              = (r : WithBot ℝ)
            → (est_approx_draws true lp_fun u T K alpha).elbo
                = (r : WithBot ℝ))
      ∧ ((∃ j < K, (est_approx_draws true lp_fun u T K alpha).lp_ratio j = ⊥)
          → (est_approx_draws true lp_fun u T K alpha).elbo = ⊥) := by
  refine ⟨fun j => rfl, fun j => rfl, rfl, fun r hr => hr, ?_⟩
  rintro ⟨j, hj, hbot⟩
  have h1 : (est_approx_draws true lp_fun u T K alpha).elbo
      = meanWB K (est_approx_draws true lp_fun u T K alpha).lp_ratio := rfl
  rw [h1]
  unfold meanWB
  rw [sum_withBot_eq_bot (Finset.mem_range.mpr hj) hbot]
  rfl

/-- C5 witness: a concrete record with a throwing log density, whose ELBO is
`-infinity` by the theorem. -/
theorem C5_elbo_record_witness :
    (est_approx_draws true (fun _ => Except.error ()) (fun _ _ => 0)
        taylor_approx_default 1 (fun _ => 0)).elbo = ⊥ :=
  (C5_elbo_record (fun _ => Except.error ()) (fun _ _ => 0)
      taylor_approx_default 1 (fun _ => 0)).2.2.2.2
    ⟨0, Nat.zero_lt_one, rfl⟩

/-- C7: if `lp_fun` throws on the `i`-th candidate draw, `est_approx_draws`
records `lp_mat[i,1] = -infinity` (`⊥`) and continues: every column `j`
whose evaluation succeeds still receives its value, and the per-column
counter reaches `num_samples` — the exception never escapes the (total)
estimator. -/
theorem C7_lp_throw_recorded (lp_fun : Vec ℝ → Except Unit ℝ) (u : Mat ℝ)
    (T : taylor_approx_t) (K : ℕ) (alpha : Vec ℝ) (i : ℕ) (e : Unit)
    (_hi : i < K)
    (herr : lp_fun (fun l => approximate_samples u T l i) = Except.error e) :
    (est_approx_draws true lp_fun u T K alpha).lp_mat1 i = ⊥
      ∧ (∀ j v, lp_fun (fun l => approximate_samples u T l j) = Except.ok v
          → (est_approx_draws true lp_fun u T K alpha).lp_mat1 j
              = (v : WithBot ℝ))
      ∧ (est_approx_draws true lp_fun u T K alpha).fn_calls = K := by
  refine ⟨?_, ?_, rfl⟩
  · show (match lp_fun (fun l => approximate_samples u T l i) with
      | Except.ok v => (v : WithBot ℝ)
      | Except.error _ => ⊥) = ⊥
    rw [herr]
  · intro j v hok
    show (match lp_fun (fun l => approximate_samples u T l j) with
      | Except.ok v => (v : WithBot ℝ)
      | Except.error _ => ⊥) = (v : WithBot ℝ)
    rw [hok]

/-- C7 witness: with an always-throwing log density and two draws, the first
column of `lp_mat[:,1]` is `-infinity` by the theorem. -/
theorem C7_lp_throw_recorded_witness :
    (est_approx_draws true (fun _ => Except.error ()) (fun _ _ => 0)
        taylor_approx_default 2 (fun _ => 0)).lp_mat1 0 = ⊥ :=
  (C7_lp_throw_recorded (fun _ => Except.error ()) (fun _ _ => 0)
      taylor_approx_default 2 (fun _ => 0) 0 () (by norm_num) rfl).1

/-- C2 (failing input): at a driver-loop step with optimizer return code 0,
previous iterate `(0)` and current iterate `x = (1)`, `g = (-1)`, the new
pair `s = (1)`, `y = (-1)` fails the curvature check — `sᵀy = -1` is not
positive, so both the claim's form and the code's `check_curve` reject it —
yet both history buffers grow from empty to length one: the driver inserts
every pair before the check is consulted. -/
theorem C2_pair_inserted_despite_failed_check :
    ¬ check_curve 1 (fun _ => (1 : ℚ)) (fun _ => (-1 : ℚ))
      ∧ dotv 1 (fun _ => (-1 : ℚ)) (fun _ => (1 : ℚ)) ≤ 0
      ∧ (lbfgs_driver_step 5 1
          (⟨[], [], fun _ => 0, fun _ => 0, fun _ => 1, 0⟩ : LbfgsState ℚ) 0
          (fun _ => 1) (fun _ => -1)).param_buff.length = 1
      ∧ (lbfgs_driver_step 5 1
          (⟨[], [], fun _ => 0, fun _ => 0, fun _ => 1, 0⟩ : LbfgsState ℚ) 0
          (fun _ => 1) (fun _ => -1)).grad_buff.length = 1 := by
  refine ⟨?_, ?_, ?_, ?_⟩
  · rintro ⟨h, -⟩
    norm_num [dotv, Finset.sum_range_one] at h
  · norm_num [dotv, Finset.sum_range_one]
  · norm_num [lbfgs_driver_step, push_buff]
  · norm_num [lbfgs_driver_step, push_buff]

/-- C3 (counterexample): at a driver-loop step with return code 0, previous
iterate `(0)`, current iterate `x = (1)`, `g = (10¹³)`, the pair
`y = (10¹³)`, `s = (1)` has `yᵀs = 10¹³ > 0` but
`|y|²/(yᵀs) = 10¹³ > 10¹²`, so the claim's check rejects it and the claim
predicts `alpha` stays at its initial value `1`; the code nevertheless
updates `alpha` (to `10⁻¹³`), because `check_curve` is called with the
parameter difference as its first argument and therefore tests
`|s|²/(sᵀy) = 10⁻¹³ ≤ 10¹²`. -/
theorem C3_alpha_updated_against_claim :
    (0 < dotv 1 (fun _ => (10 ^ 13 : ℚ)) (fun _ => (1 : ℚ)))
      ∧ ¬((∑ j ∈ Finset.range 1, (fun _ => (10 ^ 13 : ℚ)) j ^ 2)
            / dotv 1 (fun _ => (10 ^ 13 : ℚ)) (fun _ => (1 : ℚ)) ≤ 10 ^ 12)
      ∧ (lbfgs_driver_step 5 1
          (⟨[], [], fun _ => 0, fun _ => 0, fun _ => 1, 0⟩ : LbfgsState ℚ) 0
          (fun _ => 1) (fun _ => 10 ^ 13)).alpha 0 ≠ (1 : ℚ) := by
  refine ⟨?_, ?_, ?_⟩
  · norm_num [dotv, Finset.sum_range_one]
  · norm_num [dotv, Finset.sum_range_one]
  · norm_num [lbfgs_driver_step, check_curve, form_diag, dotv, push_buff,
      Finset.sum_range_one]
    rw [if_pos (show |(1 : ℚ) / 10000000000000| ≤ 1000000000000 by
      rw [abs_of_pos (by norm_num : (0 : ℚ) < 1 / 10000000000000)]
      norm_num)]
    norm_num

/-- C3 (amended): at every driver-loop step whose return code is not `-1`,
`alpha` is updated by `form_diag` exactly when the new pair
`(y, s) = (g - prev_grads, x - prev_params)` satisfies `sᵀy > 0` and
`|sᵀs/(sᵀy)| ≤ 10¹²` — the numerator of the curvature ratio is the squared
norm of the parameter difference `s`, not of the gradient difference `y`,
because the call site passes the parameter difference as `check_curve`'s
first argument — and `alpha` is left unchanged otherwise (as it is when the
return code is `-1`). -/
theorem C3_alpha_update_iff {K : Type} [LinearOrderedField K]
    (history_size d : ℕ) (st : LbfgsState K) (ret : Int) (x g : Vec K) :
    (lbfgs_driver_step history_size d st ret x g).alpha
      = if ret ≠ -1
            ∧ 0 < dotv d (fun j => x j - st.prev_params j)
                (fun j => g j - st.prev_grads j)
            ∧ |(∑ j ∈ Finset.range d, (x j - st.prev_params j) ^ 2)
                  / dotv d (fun j => x j - st.prev_params j)
                    (fun j => g j - st.prev_grads j)| ≤ 10 ^ 12
        then form_diag d st.alpha (fun j => g j - st.prev_grads j)
              (fun j => x j - st.prev_params j)
        else st.alpha := by
  by_cases hr : ret = -1
  · subst hr
    simp [lbfgs_driver_step]
  · have hr' : ret ≠ -1 := hr
    by_cases hc : check_curve d (fun j => x j - st.prev_params j)
        (fun j => g j - st.prev_grads j)
    · have hc' := hc
      unfold check_curve at hc'
      rw [if_pos ⟨hr', hc'⟩]
      unfold lbfgs_driver_step
      rw [if_pos hr']
      simp only
      rw [if_pos hc]
    · have hnot : ¬(ret ≠ -1
          ∧ 0 < dotv d (fun j => x j - st.prev_params j)
              (fun j => g j - st.prev_grads j)
          ∧ |(∑ j ∈ Finset.range d, (x j - st.prev_params j) ^ 2)
                / dotv d (fun j => x j - st.prev_params j)
                  (fun j => g j - st.prev_grads j)| ≤ 10 ^ 12) := by
        rintro ⟨-, h2, h3⟩
        exact hc ⟨h2, h3⟩
      rw [if_neg hnot]
      unfold lbfgs_driver_step
      rw [if_pos hr']
      simp only
      rw [if_neg hc]

/-- C3 (amended) witness: at the concrete failing input of the
counterexample, the amended theorem yields the `form_diag` branch. -/
theorem C3_alpha_update_iff_witness :
    (lbfgs_driver_step 5 1
        (⟨[], [], fun _ => 0, fun _ => 0, fun _ => 1, 0⟩ : LbfgsState ℚ) 0
        (fun _ => 1) (fun _ => 10 ^ 13)).alpha
      = if (0 : Int) ≠ -1
            ∧ 0 < dotv 1 (fun j => (fun _ => (1 : ℚ)) j - (fun _ => (0 : ℚ)) j)
                (fun j => (fun _ => (10 ^ 13 : ℚ)) j - (fun _ => (0 : ℚ)) j)
            ∧ |(∑ j ∈ Finset.range 1,
                  ((fun _ => (1 : ℚ)) j - (fun _ => (0 : ℚ)) j) ^ 2)
                  / dotv 1 (fun j => (fun _ => (1 : ℚ)) j - (fun _ => (0 : ℚ)) j)
                    (fun j => (fun _ => (10 ^ 13 : ℚ)) j - (fun _ => (0 : ℚ)) j)|
                ≤ 10 ^ 12
        then form_diag 1 (fun _ => (1 : ℚ))
              (fun j => (fun _ => (10 ^ 13 : ℚ)) j - (fun _ => (0 : ℚ)) j)
              (fun j => (fun _ => (1 : ℚ)) j - (fun _ => (0 : ℚ)) j)
        else fun _ => (1 : ℚ) :=
  C3_alpha_update_iff 5 1 ⟨[], [], fun _ => 0, fun _ => 0, fun _ => 1, 0⟩ 0
    (fun _ => 1) (fun _ => 10 ^ 13)

/-- Trivial Eigen kernels for concrete driver runs (their values are never
inspected by the exception-flow claims). -/
noncomputable def c4_kernels : EigenKernels :=
  ⟨fun _ A => A, fun _ _ W => W, fun _ _ W => W⟩

/-- Concrete driver collaborators whose interrupt callback throws on its
first invocation. -/
noncomputable def c4_oracles : DriverOracles :=
  ⟨fun _ => Except.error (), fun _ => ⟨1, fun _ => 0, fun _ => 0⟩,
    fun _ _ _ => 0, fun _ _ => 0, fun _ => Except.ok 0, id, fun _ => 0,
    fun _ => 0, 0⟩

/-- C4 (counterexample): with an interrupt callback that throws at the first
outer L-BFGS step, `pathfinder_lbfgs_single` does not return the SOFTWARE
error code with empty outputs — it does not return a value at all: the
exception propagates out (`Except.error`), contradicting the claim. -/
theorem C4_interrupt_not_caught :
    pathfinder_lbfgs_single c4_kernels c4_oracles 5 1 3 2 4 3
        = Except.error ()
      ∧ ∀ p, pathfinder_lbfgs_single c4_kernels c4_oracles 5 1 3 2 4 3
          ≠ Except.ok p := by
  have h1 : pathfinder_lbfgs_single c4_kernels c4_oracles 5 1 3 2 4 3
      = Except.error () := rfl
  exact ⟨h1, fun p hp => by rw [h1] at hp; exact Except.noConfusion hp⟩

/-- C4 (amended): if the `interrupt()` callback throws during the first
outer L-BFGS step (and, there being no handler anywhere in the driver, the
same holds at any reached step), `pathfinder_lbfgs_single` does not unwind
to a SOFTWARE return: the exception propagates out of the function
unchanged. -/
theorem C4_interrupt_throw_propagates (ker : EigenKernels)
    (orc : DriverOracles)
    (history_size d num_iterations num_elbo_draws num_draws names_size : ℕ)
    (e : Unit) (h : orc.interrupt 0 = Except.error e) :
    pathfinder_lbfgs_single ker orc history_size d num_iterations
        num_elbo_draws num_draws names_size = Except.error e := by
  unfold pathfinder_lbfgs_single
  simp [driver_loop, h, Except.map]

/-- C4 (amended) witness: the amended theorem applied to the concrete
throwing interrupt. -/
theorem C4_interrupt_throw_propagates_witness :
    pathfinder_lbfgs_single c4_kernels c4_oracles 5 1 0 2 4 3
      = Except.error () :=
  C4_interrupt_throw_propagates c4_kernels c4_oracles 5 1 0 2 4 3 () rfl

/-- A concrete upper-triangular, non-symmetric `L_approx` for the sparse
sampler comparison: `[[1, 1], [0, 1]]`. -/
noncomputable def c10_L : Mat ℝ :=
  fun a b => if a = 0 ∧ b = 1 then 1 else if a = b then 1 else 0

/-- A concrete standard-normal input column `u = e₁` (as a one-column
matrix). -/
noncomputable def c10_u : Mat ℝ :=
  fun i j => if i = 0 ∧ j = 0 then 1 else 0

/-- C10 (counterexample): on the same sparse Taylor approximation —
`d = k = 2`, `x_center = 0`, `L_approx = [[1,1],[0,1]]`, `Qk = I`,
`alpha = (1,1) > 0` — and the same standard-normal input `u = e₁`, the newer
`approximate_samples` and the older `get_rnorm_and_draws` disagree: the
entry at row 1 of the draw is `0` for the newer function but `1` for the
older one (the newer multiplies by `L_approx - I`, the older by
`L_approxᵀ - I`). -/
theorem C10_sparse_draws_differ :
    approximate_samples c10_u
        ⟨2, 2, (fun _ => 0), 0, c10_L, idm, (fun _ => 1), false⟩
      ≠ get_rnorm_and_draws c10_u ⟨2, 2, (fun _ => 0), 0, c10_L, idm, false⟩
          (fun _ => 1) := by
  intro hcontra
  have h1 := congrFun (congrFun hcontra 1) 0
  norm_num [approximate_samples, get_rnorm_and_draws, idm, c10_L, c10_u,
    Finset.sum_range_succ, Finset.sum_range_zero, Real.sqrt_one] at h1

/-- C10 (amended): the two sparse-path samplers agree on the same
`x_center`, `Qk` and `alpha` exactly up to transposition of the triangular
factor: the newer `approximate_samples` applied to a sparse approximation
holding `Mᵀ` produces, for every input matrix `u`, the same draws as the
older `get_rnorm_and_draws` applied to the approximation holding `M` (the
two functions use opposite storage conventions for `L_approx`, so the
claimed equality at identical `L_approx` holds only for symmetric
factors). -/
theorem C10_sparse_draws_transpose_agree (d k : ℕ) (xc : Vec ℝ) (ldet : ℝ)
    (M Qk : Mat ℝ) (alpha : Vec ℝ) (u : Mat ℝ) :
    approximate_samples u ⟨d, k, xc, ldet, fun a b => M b a, Qk, alpha, false⟩
      = get_rnorm_and_draws u ⟨d, k, xc, ldet, M, Qk, false⟩ alpha := by
  funext i j
  simp only [approximate_samples, get_rnorm_and_draws, idm, Bool.false_eq_true,
    if_false]
  have key : ∀ a ∈ Finset.range k,
      (∑ b ∈ Finset.range k,
          (M b a - if a = b then (1 : ℝ) else 0)
            * (∑ l ∈ Finset.range d, Qk l b * u l j))
        = (∑ b ∈ Finset.range k,
            M b a * (∑ l ∈ Finset.range d, Qk l b * u l j))
            - (∑ l ∈ Finset.range d, Qk l a * u l j) := by
    intro a ha
    simp only [sub_mul]
    rw [Finset.sum_sub_distrib]
    congr 1
    simp only [ite_mul, one_mul, zero_mul, Finset.sum_ite_eq]
    simp [ha]
  rw [Finset.sum_congr rfl (fun a ha => by rw [key a ha])]
  simp only [mul_sub]
  rw [Finset.sum_sub_distrib]
  ring

/-- C8: for every elementwise-positive `alpha` and every pair `(Yk, Sk)`
passing the curvature check (`YkᵀSk > 0`, `|Yk|²/(YkᵀSk) ≤ 10¹²`),
`form_diag` computes the Gilbert–Lemaréchal diagonal update
`(yᵀs) / ((yᵀdiag(α)y)/αᵢ + yᵢ² - (yᵀdiag(α)y / sᵀdiag(α)⁻¹s)·(sᵢ/αᵢ)²)`
and every coordinate of the result is positive.  (Positivity uses only
`YkᵀSk > 0` and `alpha > 0`.) -/
theorem C8_form_diag_positive {K : Type} [LinearOrderedField K] (d : ℕ)
    (alpha Yk Sk : Vec K) (hα : ∀ i < d, 0 < alpha i)
    (hys : 0 < dotv d Yk Sk)
    (_hθ : (∑ j ∈ Finset.range d, Yk j ^ 2) / dotv d Yk Sk ≤ 10 ^ 12) :
    ∀ i < d,
      form_diag d alpha Yk Sk i
          = dotv d Yk Sk
              / ((∑ j ∈ Finset.range d, Yk j * (alpha j * Yk j)) / alpha i
                  + Yk i ^ 2
                  - (∑ j ∈ Finset.range d, Yk j * (alpha j * Yk j))
                      / (∑ j ∈ Finset.range d, Sk j * ((alpha j)⁻¹ * Sk j))
                      * (Sk i / alpha i) ^ 2)
        ∧ 0 < form_diag d alpha Yk Sk i := by
  intro i hi
  refine ⟨rfl, ?_⟩
  have hαi := hα i hi
  have hexists : ∃ j ∈ Finset.range d, Yk j * Sk j ≠ 0 := by
    by_contra hall
    push_neg at hall
    have h0 : dotv d Yk Sk = 0 := Finset.sum_eq_zero hall
    rw [h0] at hys
    exact lt_irrefl 0 hys
  obtain ⟨j0, hj0mem, hj0⟩ := hexists
  have hyj0 : Yk j0 ≠ 0 := left_ne_zero_of_mul hj0
  have hsj0 : Sk j0 ≠ 0 := right_ne_zero_of_mul hj0
  set a := ∑ j ∈ Finset.range d, Yk j * (alpha j * Yk j) with ha_def
  set b := ∑ j ∈ Finset.range d, Sk j * ((alpha j)⁻¹ * Sk j) with hb_def
  have hterm_a : ∀ j ∈ Finset.range d, 0 ≤ Yk j * (alpha j * Yk j) := by
    intro j hj
    have hαj := hα j (Finset.mem_range.mp hj)
    have heq : Yk j * (alpha j * Yk j) = alpha j * Yk j ^ 2 := by ring
    rw [heq]
    positivity
  have hterm_b : ∀ j ∈ Finset.range d, 0 ≤ Sk j * ((alpha j)⁻¹ * Sk j) := by
    intro j hj
    have hαj := hα j (Finset.mem_range.mp hj)
    have heq : Sk j * ((alpha j)⁻¹ * Sk j) = (alpha j)⁻¹ * Sk j ^ 2 := by ring
    rw [heq]
    positivity
  have ha : 0 < a := by
    refine Finset.sum_pos' hterm_a ⟨j0, hj0mem, ?_⟩
    have hαj := hα j0 (Finset.mem_range.mp hj0mem)
    have heq : Yk j0 * (alpha j0 * Yk j0) = alpha j0 * Yk j0 ^ 2 := by ring
    rw [heq]
    exact mul_pos hαj
      (lt_of_le_of_ne (sq_nonneg _) (Ne.symm (pow_ne_zero 2 hyj0)))
  have hb : 0 < b := by
    refine Finset.sum_pos' hterm_b ⟨j0, hj0mem, ?_⟩
    have hαj := hα j0 (Finset.mem_range.mp hj0mem)
    have heq : Sk j0 * ((alpha j0)⁻¹ * Sk j0) = (alpha j0)⁻¹ * Sk j0 ^ 2 := by
      ring
    rw [heq]
    exact mul_pos (inv_pos.mpr hαj)
      (lt_of_le_of_ne (sq_nonneg _) (Ne.symm (pow_ne_zero 2 hsj0)))
  have hsingle : Sk i * ((alpha i)⁻¹ * Sk i) ≤ b :=
    Finset.single_le_sum hterm_b (Finset.mem_range.mpr hi)
  have hsle : Sk i ^ 2 ≤ b * alpha i := by
    have h1 : Sk i * ((alpha i)⁻¹ * Sk i) = Sk i ^ 2 * (alpha i)⁻¹ := by ring
    rw [h1] at hsingle
    calc Sk i ^ 2 = Sk i ^ 2 * (alpha i)⁻¹ * alpha i := by
          field_simp
      _ ≤ b * alpha i :=
          mul_le_mul_of_nonneg_right hsingle (le_of_lt hαi)
  have hD : 0 < a / alpha i + Yk i ^ 2 - a / b * (Sk i / alpha i) ^ 2 := by
    by_cases hyi : Yk i = 0
    · have hj0i : j0 ≠ i := by
        rintro rfl
        exact hyj0 hyi
      have hsubset : ({i, j0} : Finset ℕ) ⊆ Finset.range d := by
        intro x hx
        rcases Finset.mem_insert.mp hx with h | h
        · subst h; exact Finset.mem_range.mpr hi
        · have hx0 := Finset.mem_singleton.mp h
          subst hx0; exact hj0mem
      have hpair : Sk i * ((alpha i)⁻¹ * Sk i)
          + Sk j0 * ((alpha j0)⁻¹ * Sk j0) ≤ b := by
        have hmono :=
          Finset.sum_le_sum_of_subset_of_nonneg hsubset
            (fun j hj _ => hterm_b j hj)
        rwa [Finset.sum_pair (Ne.symm hj0i)] at hmono
      have hj0pos : 0 < Sk j0 * ((alpha j0)⁻¹ * Sk j0) := by
        have hαj := hα j0 (Finset.mem_range.mp hj0mem)
        have heq : Sk j0 * ((alpha j0)⁻¹ * Sk j0)
            = (alpha j0)⁻¹ * Sk j0 ^ 2 := by ring
        rw [heq]
        exact mul_pos (inv_pos.mpr hαj)
          (lt_of_le_of_ne (sq_nonneg _) (Ne.symm (pow_ne_zero 2 hsj0)))
      have hstrict : Sk i ^ 2 * (alpha i)⁻¹ < b := by
        have h1 : Sk i ^ 2 * (alpha i)⁻¹ = Sk i * ((alpha i)⁻¹ * Sk i) := by
          ring
        rw [h1]
        exact lt_of_lt_of_le (lt_add_of_pos_right _ hj0pos) hpair
      have hslt : Sk i ^ 2 < b * alpha i := by
        calc Sk i ^ 2 = Sk i ^ 2 * (alpha i)⁻¹ * alpha i := by field_simp
          _ < b * alpha i := mul_lt_mul_of_pos_right hstrict hαi
      have hlt : a / b * (Sk i / alpha i) ^ 2 < a / alpha i := by
        rw [div_pow, div_mul_div_comm, div_lt_div_iff₀ (by positivity) hαi]
        calc a * Sk i ^ 2 * alpha i
            < a * (b * alpha i) * alpha i :=
              mul_lt_mul_of_pos_right (mul_lt_mul_of_pos_left hslt ha) hαi
          _ = a * (b * alpha i ^ 2) := by ring
      have h02 : (0 : K) ^ 2 = 0 := by norm_num
      rw [hyi, h02]
      linarith
    · have hy2 : 0 < Yk i ^ 2 :=
        lt_of_le_of_ne (sq_nonneg _) (Ne.symm (pow_ne_zero 2 hyi))
      have hle : a / b * (Sk i / alpha i) ^ 2 ≤ a / alpha i := by
        rw [div_pow, div_mul_div_comm, div_le_div_iff₀ (by positivity) hαi]
        calc a * Sk i ^ 2 * alpha i
            ≤ a * (b * alpha i) * alpha i :=
              mul_le_mul_of_nonneg_right
                (mul_le_mul_of_nonneg_left hsle (le_of_lt ha)) (le_of_lt hαi)
          _ = a * (b * alpha i ^ 2) := by ring
      linarith
  have hfd : form_diag d alpha Yk Sk i
      = dotv d Yk Sk
          / ((∑ j ∈ Finset.range d, Yk j * (alpha j * Yk j)) / alpha i
              + Yk i ^ 2
              - (∑ j ∈ Finset.range d, Yk j * (alpha j * Yk j))
                  / (∑ j ∈ Finset.range d, Sk j * ((alpha j)⁻¹ * Sk j))
                  * (Sk i / alpha i) ^ 2) := rfl
  rw [hfd, ← ha_def, ← hb_def]
  exact div_pos hys hD

/-- C8 witness: at `d = 1`, `alpha = (1)`, `Yk = (1)`, `Sk = (1)` the
curvature check holds and the updated diagonal entry is positive. -/
theorem C8_form_diag_positive_witness :
    0 < form_diag 1 (fun _ => (1 : ℚ)) (fun _ => 1) (fun _ => 1) 0 :=
  (C8_form_diag_positive 1 (fun _ => (1 : ℚ)) (fun _ => 1) (fun _ => 1)
      (fun _ _ => one_pos)
      (by norm_num [dotv, Finset.sum_range_one])
      (by norm_num [dotv, Finset.sum_range_one]) 0 Nat.zero_lt_one).2

/-- Composition of two `Array.map`s. -/
theorem array_map_map {α β γ : Type} (f : α → β) (g : β → γ) (a : Array α) :
    (a.map f).map g = a.map (fun x => g (f x)) := by
  apply Array.ext
  · simp [Array.size_map]
  · intro i h1 h2
    simp [Array.getElem_map]

/-- Folding `max` over a list shifted by `c`, from a shifted seed, shifts
the result by `c`. -/
theorem list_foldl_max_add (l : List ℝ) (x c : ℝ) :
    (l.map (fun v => v + c)).foldl max (x + c) = l.foldl max x + c := by
  induction l generalizing x with
  | nil => rfl
  | cons y t ih =>
    simp only [List.map_cons, List.foldl_cons]
    rw [max_add_add_right]
    exact ih (max x y)

/-- `maxCoeff` of a nonempty array shifted by `c` is the shifted maximum. -/
theorem arrMax_map_add (a : Array ℝ) (c : ℝ) (h : 0 < a.size) :
    arrMax (a.map (fun v => v + c)) = arrMax a + c := by
  unfold arrMax
  rw [Array.toList_map]
  have hget : (a.map (fun v => v + c)).getD 0 0 = a.getD 0 0 + c := by
    simp [Array.getD, Array.size_map, h, Array.getElem_map]
  rw [hget, list_foldl_max_add]

/-- `log_sum_exp` of a nonempty array shifted by `c` is the shifted value. -/
theorem lse_shift (u : Array ℝ) (c : ℝ) (h : 0 < u.size) :
    log_sum_exp (u.map (fun v => v + c)) = log_sum_exp u + c := by
  unfold log_sum_exp
  rw [Array.toList_map]
  have hmap : (u.toList.map (fun v => v + c)).map Real.exp
      = u.toList.map (fun v => Real.exp v * Real.exp c) := by
    rw [List.map_map]
    congr 1
    funext v
    simp only [Function.comp_apply]
    rw [Real.exp_add]
  rw [hmap]
  have hsum : (u.toList.map (fun v => Real.exp v * Real.exp c)).sum
      = (u.toList.map Real.exp).sum * Real.exp c := by
    induction u.toList with
    | nil => simp
    | cons x t ih =>
      simp only [List.map_cons, List.sum_cons, ih]
      ring
  rw [hsum]
  have hpos : 0 < (u.toList.map Real.exp).sum := by
    apply List.sum_pos
    · intro x hx
      obtain ⟨y, _, rfl⟩ := List.mem_map.mp hx
      exact Real.exp_pos y
    · intro hnil
      rw [List.map_eq_nil_iff] at hnil
      have hlen : u.size = 0 := by
        rw [← Array.length_toList, hnil]
        rfl
      omega
  rw [Real.log_mul (ne_of_gt hpos) (Real.exp_ne_zero c), Real.log_exp]

/-- The exponential-normalization stage of `psis_weights` is invariant under
a constant shift of the additive offset. -/
theorem exp_normalize_shift (w : Array ℝ) (m c : ℝ) (h : 0 < w.size) :
    (w.map (fun v => v + (m + c))).map
        (fun v => Real.exp (v - log_sum_exp (w.map (fun v => v + (m + c)))))
      = (w.map (fun v => v + m)).map
          (fun v => Real.exp (v - log_sum_exp (w.map (fun v => v + m)))) := by
  have hw : w.map (fun v => v + (m + c))
      = (w.map (fun v => v + m)).map (fun v => v + c) := by
    rw [array_map_map]
    congr 1
    funext v
    ring
  rw [hw]
  have hu : 0 < (w.map (fun v => v + m)).size := by simpa using h
  rw [lse_shift (w.map (fun v => v + m)) c hu]
  rw [array_map_map]
  congr 1
  funext v
  congr 1
  ring

/-- A `foldl` of position-wise `setD` writes does not change the size of an
array. -/
theorem size_foldl_setD (l : List ℕ) (pos : ℕ → ℕ) (val : ℕ → ℝ)
    (a : Array ℝ) :
    (l.foldl (fun acc i => acc.setD (pos i) (val i)) a).size = a.size := by
  induction l generalizing a with
  | nil => rfl
  | cons x t ih =>
    rw [List.foldl_cons, ih]
    exact Array.size_setD a (pos x) (val x)

/-- `insert_smooth_to_tail` preserves the size of the log-weight array. -/
theorem insert_smooth_size (lw : Array ℝ) (idx : Array ℤ) (sm : Array ℝ) :
    (insert_smooth_to_tail lw idx sm).size = lw.size := by
  unfold insert_smooth_to_tail
  exact size_foldl_setD _ _ _ _

/-- C9: `psis_weights` is shift-invariant — for every nonempty log-weight
vector `lw` and every scalar `c`,
`psis_weights (lw + c, tail_len) = psis_weights (lw, tail_len)` exactly (the
initial max-subtraction cancels the shift before any smoothing, and the
final normalization cancels it after the shift is re-added). -/
theorem C9_psis_shift_invariance (lr : Array ℝ) (c : ℝ) (tail_len_i : ℕ)
    (h : 0 < lr.size) :
    psis_weights (lr.map (fun v => v + c)) tail_len_i
      = psis_weights lr tail_len_i := by
  simp only [psis_weights]
  rw [arrMax_map_add lr c h]
  rw [show (lr.map (fun v => v + c)).map (fun v => v - (arrMax lr + c))
      = lr.map (fun v => v - arrMax lr) by
    rw [array_map_map]
    congr 1
    funext v
    ring]
  apply exp_normalize_shift
  rw [Array.size_map]
  split_ifs with h5 hflat
  · simpa using h
  · rw [insert_smooth_size]
    simpa using h
  · simpa using h

/-- C9 witness: the invariance at a concrete two-element vector and shift. -/
theorem C9_psis_shift_invariance_witness :
    psis_weights ((#[(1 : ℝ), 2]).map (fun v => v + 3)) 0
      = psis_weights #[(1 : ℝ), 2] 0 :=
  C9_psis_shift_invariance #[(1 : ℝ), 2] 3 0 (by decide)

/-- C1 (failing input): for `lw = (0,0,0,0,0,0,5)` of size `S = 7` and
`tail_len = 5` (so `5 ≤ tail_len` and `tail_len + 1 ≤ S`),
`max_n_elements lw (tail_len + 1)` returns the *first* six entries
`(0,0,0,0,0,0)` at positions `0..5` — not the six largest: the maximal
entry `5` of `lw`, sitting at position 6, is absent from the result, because
the re-scan loop `for (i = tail_len_i; i < tail_len_i; ++i)` that should
scan the rest of the array has an empty range. -/
theorem C1_max_n_elements_misses_largest :
    (max_n_elements (#[0, 0, 0, 0, 0, 0, 5] : Array ℚ) 6).1
        = #[0, 0, 0, 0, 0, 0]
      ∧ (max_n_elements (#[0, 0, 0, 0, 0, 0, 5] : Array ℚ) 6).2
        = #[0, 1, 2, 3, 4, 5]
      ∧ ¬ (5 : ℚ) ∈
          ((max_n_elements (#[0, 0, 0, 0, 0, 0, 5] : Array ℚ) 6).1.toList)
      ∧ (5 : ℚ) ∈ (#[0, 0, 0, 0, 0, 0, 5] : Array ℚ).toList
      ∧ ∀ x ∈ (#[0, 0, 0, 0, 0, 0, 5] : Array ℚ).toList, x ≤ 5 := by
  decide

end Spec2Proof
